import Mathlib

/-!
Shallow embedding of the `TestDataManager` utility
(`utils/testDataManager.js`) of the Playwright-Training repository,
together with proofs of the specification claims about it.

A dataset record is a finite map from field names to string values,
modelled as an association list.  The manager state carries the loaded
dataset (`allData`), the set of used dataset indices (`usedIndices`,
a JS `Set` of numbers) and the configured slice size (`dataPerWorker`).
Console logging in the source is pure observation and is dropped.
-/

namespace TestData

/-- A dataset record: an association list from field names to values
(a row of the CSV/Excel file). -/
structure Record where
  fields : List (String × String)
deriving DecidableEq, Repr

/-- Field access `item[key]`: `some v` when the field is present,
`none` standing for JS `undefined`. -/
def Record.lookup (r : Record) (k : String) : Option String :=
  r.fields.lookup k

/-- Placeholder record used for the (provably unreachable) out-of-bounds
reads in the embedding; JS would produce `undefined` there. -/
def dummyRecord : Record := ⟨[]⟩

/-- The value returned by the data-access methods: a copy of the record
spread together with the `_dataIndex` annotation and, when the method adds
it, the `_workerIndex` annotation (`none` models the field being absent
from the returned object). -/
structure DataResult where
  record : Record
  dataIndex : Nat
  workerIndex : Option Nat
deriving DecidableEq, Repr

/-- The mutable state of a `TestDataManager` instance that the data-access
methods read and write: `this.allData`, `this.usedIndices` and
`this.dataPerWorker`. -/
structure TestDataManager where
  allData : List Record
  usedIndices : Finset Nat
  dataPerWorker : Nat
deriving DecidableEq

/-- `startIndex = workerIndex * this.dataPerWorker` of `getUniqueData`. -/
def TestDataManager.startIndex (m : TestDataManager) (workerIndex : Nat) : Nat :=
  workerIndex * m.dataPerWorker

/-- `dataIndex = startIndex + offset` of `getUniqueData`: the candidate
dataset index for a worker/offset pair. -/
def TestDataManager.candidateIndex (m : TestDataManager) (workerIndex offset : Nat) : Nat :=
  m.startIndex workerIndex + offset

/-- The fallback for-loop of `getUniqueData`: scan the given candidate
indices in order and return the first one that is in dataset bounds and
not yet used.  `getUniqueData` passes the ascending list
`startIndex, startIndex + 1, ..., startIndex + dataPerWorker - 1`. -/
def firstFree (len : Nat) (used : Finset Nat) : List Nat → Option Nat
  | [] => none
  | i :: rest => if i < len ∧ i ∉ used then some i else firstFree len used rest

/-- `TestDataManager.getUniqueData(workerIndex, offset = 0)`.

Returns the JS return value together with the post-call state.
The source first rejects an out-of-bounds candidate index with `null`;
then, if the candidate was already used, scans the worker's reserved
range for an alternative (returning it annotated with `_dataIndex` only);
otherwise it marks the candidate used and returns the record annotated
with `_dataIndex` and `_workerIndex`. -/
def TestDataManager.getUniqueData (m : TestDataManager) (workerIndex offset : Nat) :
    Option DataResult × TestDataManager :=
  let dataIndex := m.candidateIndex workerIndex offset
  if m.allData.length ≤ dataIndex then
    (none, m)
  else if dataIndex ∈ m.usedIndices then
    match firstFree m.allData.length m.usedIndices
        (List.range' (m.startIndex workerIndex) m.dataPerWorker) with
    | some altIndex =>
        (some { record := m.allData.getD altIndex dummyRecord,
                dataIndex := altIndex, workerIndex := none },
         { m with usedIndices := insert altIndex m.usedIndices })
    | none => (none, m)
  else
    (some { record := m.allData.getD dataIndex dummyRecord,
            dataIndex := dataIndex, workerIndex := some workerIndex },
     { m with usedIndices := insert dataIndex m.usedIndices })

/-- The loop body of `TestDataManager.getMultipleData`: `i` is the current
offset, the second argument the number of remaining iterations.  The loop
pushes each non-null `getUniqueData(workerIndex, i)` result and breaks at
the first `null`. -/
def TestDataManager.getMultipleDataAux (workerIndex : Nat) :
    Nat → Nat → TestDataManager → List DataResult × TestDataManager
  | _, 0, m => ([], m)
  | i, n + 1, m =>
    match m.getUniqueData workerIndex i with
    | (some d, m1) =>
        let r := TestDataManager.getMultipleDataAux workerIndex (i + 1) n m1
        (d :: r.1, r.2)
    | (none, m1) => ([], m1)

/-- `TestDataManager.getMultipleData(workerIndex, count)`. -/
def TestDataManager.getMultipleData (m : TestDataManager) (workerIndex count : Nat) :
    List DataResult × TestDataManager :=
  TestDataManager.getMultipleDataAux workerIndex 0 count m

/-- `TestDataManager.getFilteredData(filter)`: keep the records whose
value at every filter key equals the required value (`item[key] === value`;
an absent field is `undefined` and never equals a string value). -/
def TestDataManager.getFilteredData (m : TestDataManager)
    (filt : List (String × String)) : List Record :=
  m.allData.filter fun item => filt.all fun kv => item.lookup kv.1 == some kv.2

/-- `TestDataManager.getDataByIndex(index, markAsUsed = true)`.  The JS
`index` may be negative, so it is modelled as an integer. -/
def TestDataManager.getDataByIndex (m : TestDataManager) (index : Int) (markAsUsed : Bool) :
    Option DataResult × TestDataManager :=
  if index < 0 ∨ (m.allData.length : Int) ≤ index then
    (none, m)
  else
    (some { record := m.allData.getD index.toNat dummyRecord,
            dataIndex := index.toNat, workerIndex := none },
     if markAsUsed then { m with usedIndices := insert index.toNat m.usedIndices } else m)

/-- `TestDataManager.resetUsedData()`: `this.usedIndices.clear()`. -/
def TestDataManager.resetUsedData (m : TestDataManager) : TestDataManager :=
  { m with usedIndices := ∅ }

/-- Run a sequence of `getUniqueData` calls (worker, offset pairs) against
an evolving state, collecting the non-null results in order. -/
def runCalls : TestDataManager → List (Nat × Nat) → List DataResult × TestDataManager
  | m, [] => ([], m)
  | m, c :: rest =>
    match m.getUniqueData c.1 c.2 with
    | (some d, m1) =>
        let r := runCalls m1 rest
        (d :: r.1, r.2)
    | (none, m1) => runCalls m1 rest

/-- A record matches a filter when its value at every filter key equals the
required value (the documented semantics of `getFilteredData`). -/
def Record.Matches (r : Record) (filt : List (String × String)) : Prop :=
  ∀ p ∈ filt, r.lookup p.1 = some p.2

instance (r : Record) (filt : List (String × String)) : Decidable (r.Matches filt) :=
  inferInstanceAs (Decidable (∀ p ∈ filt, r.lookup p.1 = some p.2))

/-- The spec-side description of `getMultipleData`, written from the spec's
words for the refinement claim: repeated `getUniqueData(workerIndex, o)` for
the offsets `o` of the given list, in order, against the same evolving
state, stopping at the first null result. -/
def specRepeatedAllocate (workerIndex : Nat) :
    TestDataManager → List Nat → List DataResult × TestDataManager
  | m, [] => ([], m)
  | m, o :: rest =>
    match m.getUniqueData workerIndex o with
    | (some d, m1) =>
        let r := specRepeatedAllocate workerIndex m1 rest
        (d :: r.1, r.2)
    | (none, m1) => ([], m1)

/-- Concrete record for witnesses: an active user named alice. -/
def recA : Record := ⟨[( "status", "active"), ( "name", "alice")]⟩

/-- Concrete record for witnesses: an inactive user named bob. -/
def recB : Record := ⟨[( "status", "inactive"), ( "name", "bob")]⟩

/-- Concrete record for witnesses: an active user named carol. -/
def recC : Record := ⟨[( "status", "active"), ( "name", "carol")]⟩

/-- Concrete manager for witnesses: three records, two per worker, nothing
used yet. -/
def mEx : TestDataManager := ⟨[recA, recB, recC], ∅, 2⟩

/-- Concrete manager for witnesses: three records, two per worker, index 0
already used. -/
def mUsed : TestDataManager := ⟨[recA, recB, recC], {0}, 2⟩

end TestData

namespace TestData

/-! ### Helper lemmas about the fallback scan and `getUniqueData` -/

theorem firstFree_some {len : Nat} {used : Finset Nat} :
    ∀ {l : List Nat} {i : Nat}, firstFree len used l = some i →
      i ∈ l ∧ i < len ∧ i ∉ used := by
  intro l
  induction l with
  | nil => intro i h; simp [firstFree] at h
  | cons a rest ih =>
    intro i h
    rw [firstFree] at h
    split at h
    · cases h
      exact ⟨List.mem_cons_self a rest, by assumption⟩
    · obtain ⟨h1, h2, h3⟩ := ih h
      exact ⟨List.mem_cons_of_mem a h1, h2, h3⟩

theorem firstFree_range'_some {len : Nat} {used : Finset Nat} :
    ∀ (n s : Nat) {i : Nat}, firstFree len used (List.range' s n) = some i →
      s ≤ i ∧ i < s + n ∧ i < len ∧ i ∉ used ∧
        ∀ j, s ≤ j → j < i → ¬(j < len ∧ j ∉ used) := by
  intro n
  induction n with
  | zero => intro s i h; simp [List.range', firstFree] at h
  | succ k ih =>
    intro s i h
    rw [List.range'_succ, firstFree] at h
    split at h
    next hc =>
      cases h
      refine ⟨Nat.le_refl s, by omega, hc.1, hc.2, ?_⟩
      intro j hj1 hj2
      omega
    next hc =>
      obtain ⟨h1, h2, h3, h4, h5⟩ := ih (s + 1) h
      refine ⟨by omega, by omega, h3, h4, ?_⟩
      intro j hj1 hj2
      rcases Nat.eq_or_lt_of_le hj1 with rfl | hlt
      · exact hc
      · exact h5 j hlt hj2

theorem firstFree_range'_none {len : Nat} {used : Finset Nat} :
    ∀ (n s : Nat), firstFree len used (List.range' s n) = none →
      ∀ j, s ≤ j → j < s + n → ¬(j < len ∧ j ∉ used) := by
  intro n
  induction n with
  | zero => intro s _ j hj1 hj2; omega
  | succ k ih =>
    intro s h j hj1 hj2
    rw [List.range'_succ, firstFree] at h
    split at h
    next hc => cases h
    next hc =>
      rcases Nat.eq_or_lt_of_le hj1 with rfl | hlt
      · exact hc
      · exact ih (s + 1) h j hlt (by omega)

theorem getUniqueData_oob {m : TestDataManager} {w o : Nat}
    (h : m.allData.length ≤ m.candidateIndex w o) :
    m.getUniqueData w o = (none, m) := by
  simp [TestDataManager.getUniqueData, h]

theorem getUniqueData_direct {m : TestDataManager} {w o : Nat}
    (hin : m.candidateIndex w o < m.allData.length)
    (hfree : m.candidateIndex w o ∉ m.usedIndices) :
    m.getUniqueData w o =
      (some { record := m.allData.getD (m.candidateIndex w o) dummyRecord,
              dataIndex := m.candidateIndex w o, workerIndex := some w },
       { m with usedIndices := insert (m.candidateIndex w o) m.usedIndices }) := by
  simp [TestDataManager.getUniqueData, Nat.not_le.mpr hin, hfree]

theorem getUniqueData_some_spec {m : TestDataManager} {w o : Nat} {d : DataResult}
    {m' : TestDataManager} (h : m.getUniqueData w o = (some d, m')) :
    d.dataIndex ∉ m.usedIndices ∧
    m'.allData = m.allData ∧ m'.dataPerWorker = m.dataPerWorker ∧
    m'.usedIndices = insert d.dataIndex m.usedIndices ∧
    d.dataIndex < m.allData.length ∧
    d.record = m.allData.getD d.dataIndex dummyRecord := by
  simp only [TestDataManager.getUniqueData] at h
  split at h
  · simp at h
  next hin =>
    split at h
    next hused =>
      split at h
      next alt halt =>
        obtain ⟨h1, h2, h3, h4, h5⟩ :=
          firstFree_range'_some m.dataPerWorker (m.startIndex w) halt
        simp only [Prod.mk.injEq, Option.some.injEq] at h
        obtain ⟨rfl, rfl⟩ := h
        exact ⟨h4, rfl, rfl, rfl, h3, rfl⟩
      · simp at h
    next hfree =>
      simp only [Prod.mk.injEq, Option.some.injEq] at h
      obtain ⟨rfl, rfl⟩ := h
      exact ⟨hfree, rfl, rfl, rfl, Nat.not_le.mp (by assumption), rfl⟩

theorem getUniqueData_none_spec {m : TestDataManager} {w o : Nat}
    {m' : TestDataManager} (h : m.getUniqueData w o = (none, m')) : m' = m := by
  simp only [TestDataManager.getUniqueData] at h
  split at h
  · exact (Prod.mk.injEq _ _ _ _ ▸ h).2.symm
  · split at h
    · split at h
      · simp at h
      · exact (Prod.mk.injEq _ _ _ _ ▸ h).2.symm
    · simp at h

theorem getUniqueData_fallback_some {m : TestDataManager} {w o : Nat} {d : DataResult}
    {m' : TestDataManager}
    (hused : m.candidateIndex w o ∈ m.usedIndices)
    (h : m.getUniqueData w o = (some d, m')) :
    m.startIndex w ≤ d.dataIndex ∧
    d.dataIndex < m.startIndex w + m.dataPerWorker ∧
    d.workerIndex = none ∧
    (∀ j, m.startIndex w ≤ j → j < d.dataIndex → ¬(j < m.allData.length ∧ j ∉ m.usedIndices)) := by
  simp only [TestDataManager.getUniqueData] at h
  rw [if_pos hused] at h
  split at h
  · simp at h
  next hin =>
    split at h
    next alt halt =>
      obtain ⟨h1, h2, h3, h4, h5⟩ :=
        firstFree_range'_some m.dataPerWorker (m.startIndex w) halt
      simp only [Prod.mk.injEq, Option.some.injEq] at h
      obtain ⟨rfl, rfl⟩ := h
      exact ⟨h1, h2, rfl, h5⟩
    · simp at h

theorem getUniqueData_fallback_none {m : TestDataManager} {w o : Nat}
    (hin : m.candidateIndex w o < m.allData.length)
    (hused : m.candidateIndex w o ∈ m.usedIndices)
    (hall : ∀ j, m.startIndex w ≤ j → j < m.startIndex w + m.dataPerWorker →
      j ∈ m.usedIndices ∨ m.allData.length ≤ j) :
    m.getUniqueData w o = (none, m) := by
  have hff : firstFree m.allData.length m.usedIndices
      (List.range' (m.startIndex w) m.dataPerWorker) = none := by
    cases hcase : firstFree m.allData.length m.usedIndices
        (List.range' (m.startIndex w) m.dataPerWorker) with
    | none => rfl
    | some i =>
      obtain ⟨hi1, hi2, hi3⟩ := firstFree_some hcase
      have hmem := List.mem_range'_1.mp hi1
      rcases hall i hmem.1 (by omega) with hu | hl
      · exact absurd hu hi3
      · omega
  simp [TestDataManager.getUniqueData, Nat.not_le.mpr hin, hused, hff]

theorem getUniqueData_direct_some {m : TestDataManager} {w o : Nat} {d : DataResult}
    {m' : TestDataManager}
    (hfree : m.candidateIndex w o ∉ m.usedIndices)
    (h : m.getUniqueData w o = (some d, m')) :
    d.dataIndex = m.candidateIndex w o ∧ d.workerIndex = some w := by
  by_cases hin : m.allData.length ≤ m.candidateIndex w o
  · rw [getUniqueData_oob hin] at h
    simp at h
  · rw [getUniqueData_direct (Nat.not_le.mp hin) hfree] at h
    simp only [Prod.mk.injEq, Option.some.injEq] at h
    obtain ⟨rfl, rfl⟩ := h
    exact ⟨rfl, rfl⟩

theorem getUniqueData_used_mono {m : TestDataManager} {w o : Nat}
    {r : Option DataResult} {m' : TestDataManager}
    (h : m.getUniqueData w o = (r, m')) : m.usedIndices ⊆ m'.usedIndices := by
  cases r with
  | none => rw [getUniqueData_none_spec h]
  | some d =>
    rw [(getUniqueData_some_spec h).2.2.2.1]
    exact Finset.subset_insert _ _

theorem runCalls_used_mono (calls : List (Nat × Nat)) :
    ∀ m : TestDataManager, m.usedIndices ⊆ (runCalls m calls).2.usedIndices := by
  induction calls with
  | nil => intro m; exact Finset.Subset.refl _
  | cons c rest ih =>
    intro m
    rw [runCalls]
    cases hc : m.getUniqueData c.1 c.2 with
    | mk r m1 =>
      cases r with
      | some d =>
        exact Finset.Subset.trans (getUniqueData_used_mono hc) (ih m1)
      | none =>
        exact Finset.Subset.trans (getUniqueData_used_mono hc) (ih m1)

theorem runCalls_fresh (calls : List (Nat × Nat)) :
    ∀ (m : TestDataManager) (d : DataResult), d ∈ (runCalls m calls).1 →
      d.dataIndex ∉ m.usedIndices ∧ d.dataIndex ∈ (runCalls m calls).2.usedIndices := by
  induction calls with
  | nil => intro m d hd; simp [runCalls] at hd
  | cons c rest ih =>
    intro m d hd
    rw [runCalls] at hd ⊢
    generalize hc : m.getUniqueData c.1 c.2 = res at hd ⊢
    obtain ⟨r, m1⟩ := res
    cases r with
    | some d0 =>
      simp only [List.mem_cons] at hd
      obtain ⟨hfresh, _, _, hins, _, _⟩ := getUniqueData_some_spec hc
      rcases hd with rfl | hd
      · refine ⟨hfresh, ?_⟩
        exact runCalls_used_mono rest m1 (hins ▸ Finset.mem_insert_self _ _)
      · obtain ⟨h1, h2⟩ := ih m1 d hd
        refine ⟨fun hmem => h1 (getUniqueData_used_mono hc hmem), h2⟩
    | none =>
      obtain ⟨h1, h2⟩ := ih m1 d hd
      exact ⟨fun hmem => h1 (getUniqueData_used_mono hc hmem), h2⟩

theorem runCalls_nodup (calls : List (Nat × Nat)) :
    ∀ m : TestDataManager, ((runCalls m calls).1.map DataResult.dataIndex).Nodup := by
  induction calls with
  | nil => intro m; simp [runCalls]
  | cons c rest ih =>
    intro m
    rw [runCalls]
    generalize hc : m.getUniqueData c.1 c.2 = res
    obtain ⟨r, m1⟩ := res
    cases r with
    | some d0 =>
      simp only [List.map_cons, List.nodup_cons]
      refine ⟨?_, ih m1⟩
      intro hmem
      simp only [List.mem_map] at hmem
      obtain ⟨d, hd, hidx⟩ := hmem
      obtain ⟨hfresh, _⟩ := runCalls_fresh rest m1 d hd
      obtain ⟨_, _, _, hins, _, _⟩ := getUniqueData_some_spec hc
      exact hfresh (hidx ▸ hins ▸ Finset.mem_insert_self _ _)
    | none => exact ih m1

end TestData

namespace TestData

/-- C1: Within one manager lifetime without an intervening reset,
`getUniqueData` never hands out the same dataset index twice: every
non-null result's index is absent from the usage set when the call starts
and is inserted by the call; over any sequence of calls (any worker and
offset arguments) the non-null results carry pairwise distinct dataset
indices; and after a successful `getUniqueData 0 0`, a repeated
`getUniqueData 0 0` returns either a different, previously unused index
lying in partition 0's range `[0, dataPerWorker)`, or null. -/
theorem getUniqueData_never_repeats :
    (∀ (m : TestDataManager) (w o : Nat) (d : DataResult) (m' : TestDataManager),
        m.getUniqueData w o = (some d, m') →
          d.dataIndex ∉ m.usedIndices ∧
          m'.usedIndices = insert d.dataIndex m.usedIndices) ∧
    (∀ (calls : List (Nat × Nat)) (m : TestDataManager),
        ((runCalls m calls).1.map DataResult.dataIndex).Nodup) ∧
    (∀ (m : TestDataManager) (d1 d2 : DataResult) (m1 m2 : TestDataManager),
        m.getUniqueData 0 0 = (some d1, m1) →
        m1.getUniqueData 0 0 = (some d2, m2) →
          d2.dataIndex ≠ d1.dataIndex ∧ d2.dataIndex ∉ m1.usedIndices ∧
          d2.dataIndex < m.dataPerWorker) := by
  refine ⟨?_, ?_, ?_⟩
  · intro m w o d m' h
    obtain ⟨h1, _, _, h4, _, _⟩ := getUniqueData_some_spec h
    exact ⟨h1, h4⟩
  · intro calls m
    exact runCalls_nodup calls m
  · intro m d1 d2 m1 m2 h1 h2
    obtain ⟨hf1, hall1, hdp1, hins1, hlen1, hrec1⟩ := getUniqueData_some_spec h1
    obtain ⟨hf2, _, _, hins2, _, _⟩ := getUniqueData_some_spec h2
    have hcand : ∀ mm : TestDataManager, mm.candidateIndex 0 0 = 0 := by
      intro mm
      unfold TestDataManager.candidateIndex TestDataManager.startIndex
      simp
    have hzero : (0 : Nat) ∈ m1.usedIndices := by
      by_cases hu : m.candidateIndex 0 0 ∈ m.usedIndices
      · rw [hins1]
        exact Finset.mem_insert_of_mem (hcand m ▸ hu)
      · obtain ⟨hidx, _⟩ := getUniqueData_direct_some hu h1
        rw [hins1]
        rw [hidx, hcand m]
        exact Finset.mem_insert_self _ _
    have hused2 : m1.candidateIndex 0 0 ∈ m1.usedIndices := by
      rw [hcand m1]
      exact hzero
    obtain ⟨hge, hlt, _, _⟩ := getUniqueData_fallback_some hused2 h2
    have hd1mem : d1.dataIndex ∈ m1.usedIndices := by
      rw [hins1]
      exact Finset.mem_insert_self _ _
    have hs : m1.startIndex 0 = 0 := by
      unfold TestDataManager.startIndex
      simp
    rw [hs] at hlt
    rw [hdp1] at hlt
    exact ⟨fun he => hf2 (he ▸ hd1mem), hf2, by omega⟩

/-- C1 witness: on the fresh three-record manager, `getUniqueData 0 0`
returns index 0, which was unused and is inserted into the usage set. -/
theorem getUniqueData_never_repeats_witness :
    (0 : Nat) ∉ mEx.usedIndices ∧
    (mEx.getUniqueData 0 0).2.usedIndices = insert 0 mEx.usedIndices :=
  getUniqueData_never_repeats.1 mEx 0 0
    { record := recA, dataIndex := 0, workerIndex := some 0 }
    (mEx.getUniqueData 0 0).2 (by decide)

end TestData

namespace TestData

/-- C2: When the candidate index is in bounds but already used,
`getUniqueData` falls back to the smallest index of the worker's own
reserved range `[startIndex, startIndex + dataPerWorker)` that is in
dataset bounds and unused, marks it used and returns the record there;
when no such index exists it returns null; the fallback never yields an
index outside the reserved range. -/
theorem getUniqueData_fallback_scan (m : TestDataManager) (w o : Nat)
    (hin : m.candidateIndex w o < m.allData.length)
    (hused : m.candidateIndex w o ∈ m.usedIndices) :
    (∀ (d : DataResult) (m' : TestDataManager), m.getUniqueData w o = (some d, m') →
        m.startIndex w ≤ d.dataIndex ∧
        d.dataIndex < m.startIndex w + m.dataPerWorker ∧
        d.dataIndex < m.allData.length ∧
        d.dataIndex ∉ m.usedIndices ∧
        (∀ j, m.startIndex w ≤ j → j < d.dataIndex → j ∈ m.usedIndices) ∧
        d.record = m.allData.getD d.dataIndex dummyRecord ∧
        m'.usedIndices = insert d.dataIndex m.usedIndices) ∧
    ((∀ j, m.startIndex w ≤ j → j < m.startIndex w + m.dataPerWorker →
        j ∈ m.usedIndices ∨ m.allData.length ≤ j) →
      m.getUniqueData w o = (none, m)) := by
  constructor
  · intro d m' h
    obtain ⟨hfresh, _, _, hins, hlen, hrec⟩ := getUniqueData_some_spec h
    obtain ⟨h1, h2, _, h5⟩ := getUniqueData_fallback_some hused h
    refine ⟨h1, h2, hlen, hfresh, ?_, hrec, hins⟩
    intro j hj1 hj2
    by_contra hj
    exact h5 j hj1 hj2 ⟨by omega, hj⟩
  · intro hall
    exact getUniqueData_fallback_none hin hused hall

/-- C2 witness: with index 0 used, `getUniqueData 0 0` falls back to
index 1, the smallest unused in-bounds index of partition 0's range. -/
theorem getUniqueData_fallback_scan_witness :
    mUsed.startIndex 0 ≤ (1 : Nat) ∧
    (1 : Nat) < mUsed.startIndex 0 + mUsed.dataPerWorker ∧
    (1 : Nat) < mUsed.allData.length ∧
    (1 : Nat) ∉ mUsed.usedIndices :=
  let h := (getUniqueData_fallback_scan mUsed 0 0 (by decide) (by decide)).1
    { record := recB, dataIndex := 1, workerIndex := none }
    (mUsed.getUniqueData 0 0).2 (by decide)
  ⟨h.1, h.2.1, h.2.2.1, h.2.2.2.1⟩

/-- C3: whenever the candidate index `workerIndex * dataPerWorker + offset`
is at or beyond the dataset length, `getUniqueData` returns null and leaves
the state (in particular the usage set) unchanged; on an empty dataset
every call returns null. -/
theorem getUniqueData_exhausted_null :
    (∀ (m : TestDataManager) (w o : Nat),
        m.allData.length ≤ m.candidateIndex w o → m.getUniqueData w o = (none, m)) ∧
    (∀ (m : TestDataManager) (w o : Nat),
        m.allData = [] → m.getUniqueData w o = (none, m)) := by
  constructor
  · intro m w o h
    exact getUniqueData_oob h
  · intro m w o h
    refine getUniqueData_oob ?_
    rw [h]
    exact Nat.zero_le _

/-- C3 witness: worker 5 has no data on the three-record manager, and the
call leaves the manager unchanged. -/
theorem getUniqueData_exhausted_null_witness :
    mEx.getUniqueData 5 0 = (none, mEx) :=
  getUniqueData_exhausted_null.1 mEx 5 0 (by decide)

/-- C4 counterexample: on the fallback path the returned object carries no
worker identifier: with index 0 used, `getUniqueData 0 0` returns the
record at index 1 whose worker field is absent (modelled `none`), not the
requesting worker 0. -/
theorem getUniqueData_fallback_worker_missing_cex :
    (mUsed.getUniqueData 0 0).1.map DataResult.workerIndex = some none ∧
    (mUsed.getUniqueData 0 0).1.map DataResult.workerIndex ≠ some (some 0) := by
  decide

/-- C4 (amended): every non-null `getUniqueData` result is a copy of the
dataset record at the allocated index, tagged with that dataset index; on
the direct path it is additionally tagged with the requesting worker
identifier, while on the fallback path the worker tag is absent. -/
theorem getUniqueData_result_contents (m : TestDataManager) (w o : Nat)
    (d : DataResult) (m' : TestDataManager)
    (h : m.getUniqueData w o = (some d, m')) :
    d.record = m.allData.getD d.dataIndex dummyRecord ∧
    d.dataIndex < m.allData.length ∧
    (m.candidateIndex w o ∉ m.usedIndices →
      d.dataIndex = m.candidateIndex w o ∧ d.workerIndex = some w) ∧
    (m.candidateIndex w o ∈ m.usedIndices → d.workerIndex = none) := by
  obtain ⟨_, _, _, _, hlen, hrec⟩ := getUniqueData_some_spec h
  refine ⟨hrec, hlen, ?_, ?_⟩
  · intro hfree
    exact getUniqueData_direct_some hfree h
  · intro hused
    exact (getUniqueData_fallback_some hused h).2.2.1

/-- C4 witness: the direct path on the fresh manager returns a copy of
record 0 tagged with index 0. -/
theorem getUniqueData_result_contents_witness :
    recA = mEx.allData.getD 0 dummyRecord ∧ (0 : Nat) < mEx.allData.length :=
  let h := getUniqueData_result_contents mEx 0 0
    { record := recA, dataIndex := 0, workerIndex := some 0 }
    (mEx.getUniqueData 0 0).2 (by decide)
  ⟨h.1, h.2.1⟩

/-- C5: for a positive slice size, the candidate-index ranges of two
distinct worker identifiers are disjoint: with offsets below the slice
size, the computed candidate indices differ. -/
theorem candidateIndex_ranges_disjoint (m : TestDataManager)
    (hdpw : 0 < m.dataPerWorker) (p1 p2 o1 o2 : Nat) (hne : p1 ≠ p2)
    (h1 : o1 < m.dataPerWorker) (h2 : o2 < m.dataPerWorker) :
    m.candidateIndex p1 o1 ≠ m.candidateIndex p2 o2 := by
  unfold TestDataManager.candidateIndex TestDataManager.startIndex
  have key : ∀ a b x : Nat, a < b → x < m.dataPerWorker →
      ∀ y : Nat, a * m.dataPerWorker + x < b * m.dataPerWorker + y := by
    intro a b x hab hx y
    calc a * m.dataPerWorker + x
        < a * m.dataPerWorker + m.dataPerWorker := Nat.add_lt_add_left hx _
      _ = (a + 1) * m.dataPerWorker := (Nat.succ_mul a m.dataPerWorker).symm
      _ ≤ b * m.dataPerWorker := Nat.mul_le_mul_right _ hab
      _ ≤ b * m.dataPerWorker + y := Nat.le_add_right _ _
  rcases Nat.lt_or_ge p1 p2 with hlt | hge
  · exact Nat.ne_of_lt (key p1 p2 o1 hlt h1 o2)
  · have hlt : p2 < p1 := Nat.lt_of_le_of_ne hge (Ne.symm hne)
    exact (Nat.ne_of_lt (key p2 p1 o2 hlt h2 o1)).symm

/-- C5 witness: on the slice-size-2 manager, worker 0 offset 1 and
worker 1 offset 0 compute different candidate indices. -/
theorem candidateIndex_ranges_disjoint_witness :
    mEx.candidateIndex 0 1 ≠ mEx.candidateIndex 1 0 :=
  candidateIndex_ranges_disjoint mEx (by decide) 0 1 1 0 (by decide) (by decide) (by decide)

end TestData

namespace TestData

theorem getMultipleDataAux_eq_spec (w : Nat) :
    ∀ (n i : Nat) (m : TestDataManager),
      TestDataManager.getMultipleDataAux w i n m =
        specRepeatedAllocate w m (List.range' i n) := by
  intro n
  induction n with
  | zero => intro i m; rfl
  | succ k ih =>
    intro i m
    rw [List.range'_succ]
    simp only [TestDataManager.getMultipleDataAux, specRepeatedAllocate]
    generalize m.getUniqueData w i = res
    obtain ⟨r, m1⟩ := res
    cases r with
    | some d => simp only; rw [ih (i + 1) m1]
    | none => rfl

theorem getMultipleDataAux_length (w : Nat) :
    ∀ (n i : Nat) (m : TestDataManager),
      (TestDataManager.getMultipleDataAux w i n m).1.length ≤ n := by
  intro n
  induction n with
  | zero => intro i m; exact Nat.le_refl 0
  | succ k ih =>
    intro i m
    simp only [TestDataManager.getMultipleDataAux]
    generalize m.getUniqueData w i = res
    obtain ⟨r, m1⟩ := res
    cases r with
    | some d =>
      simpa using Nat.succ_le_succ (ih (i + 1) m1)
    | none => exact Nat.zero_le _

/-- C6: `getMultipleData w count` is exactly the repeated-allocate loop of
the spec: `getUniqueData w o` for offsets `o = 0, 1, ..., count - 1` in
order against the evolving state, truncated at the first null result, and
its result list holds between 0 and `count` records. -/
theorem getMultipleData_eq_repeated_allocate (m : TestDataManager) (w count : Nat) :
    m.getMultipleData w count = specRepeatedAllocate w m (List.range count) ∧
    (m.getMultipleData w count).1.length ≤ count := by
  constructor
  · rw [List.range_eq_range']
    exact getMultipleDataAux_eq_spec w count 0 m
  · exact getMultipleDataAux_length w count 0 m

theorem matchesFilter_eq (r : Record) (filt : List (String × String)) :
    (filt.all fun kv => r.lookup kv.1 == some kv.2) = decide (r.Matches filt) := by
  rw [Bool.eq_iff_iff]
  simp [Record.Matches, List.all_eq_true]

/-- C7: `getFilteredData` returns exactly the dataset records, in dataset
order, matching every filter entry under string equality; it is a sublist
of the dataset; a filter entry on a field absent from every record yields
the empty list; and the result is independent of the usage set. -/
theorem getFilteredData_matching (m : TestDataManager) (filt : List (String × String)) :
    m.getFilteredData filt = m.allData.filter (fun r => decide (r.Matches filt)) ∧
    List.Sublist (m.getFilteredData filt) m.allData ∧
    (∀ k v, (k, v) ∈ filt → (∀ r ∈ m.allData, r.lookup k = none) →
        m.getFilteredData filt = []) ∧
    (∀ s : Finset Nat,
        TestDataManager.getFilteredData { m with usedIndices := s } filt =
          m.getFilteredData filt) := by
  refine ⟨?_, ?_, ?_, ?_⟩
  · exact List.filter_congr fun r _ => matchesFilter_eq r filt
  · exact List.filter_sublist m.allData
  · intro k v hkv hab
    refine List.filter_eq_nil_iff.mpr ?_
    intro r hr hall
    have hone := List.all_eq_true.mp hall (k, v) hkv
    rw [hab r hr] at hone
    simp at hone
  · intro s
    rfl

/-- C7 witness: filtering on a field absent from every record returns the
empty list. -/
theorem getFilteredData_matching_witness :
    mEx.getFilteredData [( "color", "red")] = [] :=
  (getFilteredData_matching mEx [( "color", "red")]).2.2.1 "color" "red"
    (by decide) (by decide)

theorem getDataByIndex_state_false (m : TestDataManager) (index : Int) :
    (m.getDataByIndex index false).2 = m := by
  rw [TestDataManager.getDataByIndex]
  split
  · rfl
  · rfl

/-- C8: `getDataByIndex` returns null (state unchanged) for a negative or
too-large index; for a valid index it returns the record at that index
tagged with the index, inserting the index into the usage set exactly when
`markAsUsed` is true; with `markAsUsed = false` the call has no side
effect, so an immediate repeat of the call returns the same result. -/
theorem getDataByIndex_bounds (m : TestDataManager) (index : Int) (mark : Bool) :
    ((index < 0 ∨ (m.allData.length : Int) ≤ index) →
      m.getDataByIndex index mark = (none, m)) ∧
    (0 ≤ index → index < (m.allData.length : Int) →
      m.getDataByIndex index mark =
        (some { record := m.allData.getD index.toNat dummyRecord,
                dataIndex := index.toNat, workerIndex := none },
         if mark then { m with usedIndices := insert index.toNat m.usedIndices }
         else m)) ∧
    (m.getDataByIndex index false).2 = m ∧
    ((m.getDataByIndex index false).2.getDataByIndex index false).1 =
      (m.getDataByIndex index false).1 := by
  refine ⟨?_, ?_, getDataByIndex_state_false m index, ?_⟩
  · intro h
    simp [TestDataManager.getDataByIndex, h]
  · intro h1 h2
    have hcond : ¬(index < 0 ∨ (m.allData.length : Int) ≤ index) := by omega
    simp [TestDataManager.getDataByIndex, hcond]
  · rw [getDataByIndex_state_false m index]

/-- C8 witness: index 5 is out of bounds on the three-record manager and
yields null with the manager unchanged; index 2 is valid and returns the
record there. -/
theorem getDataByIndex_bounds_witness :
    mEx.getDataByIndex 5 true = (none, mEx) :=
  (getDataByIndex_bounds mEx 5 true).1 (by decide)

/-- C9: `resetUsedData` empties the usage set and changes nothing else
(dataset and slice size are untouched); afterwards every in-bounds index
is available again, both to `getDataByIndex` and to `getUniqueData`'s
direct path. -/
theorem resetUsedData_clears (m : TestDataManager) :
    m.resetUsedData.usedIndices = ∅ ∧
    m.resetUsedData.allData = m.allData ∧
    m.resetUsedData.dataPerWorker = m.dataPerWorker ∧
    (∀ i : Nat, i < m.allData.length →
      (m.resetUsedData.getDataByIndex (i : Int) true).1 =
        some { record := m.allData.getD i dummyRecord,
               dataIndex := i, workerIndex := none }) ∧
    (∀ w o : Nat, m.candidateIndex w o < m.allData.length →
      m.resetUsedData.getUniqueData w o =
        (some { record := m.allData.getD (m.candidateIndex w o) dummyRecord,
                dataIndex := m.candidateIndex w o, workerIndex := some w },
         { m with usedIndices := insert (m.candidateIndex w o) ∅ })) := by
  refine ⟨rfl, rfl, rfl, ?_, ?_⟩
  · intro i hi
    have hcond : ¬((i : Int) < 0 ∨ ((m.resetUsedData.allData.length : Nat) : Int) ≤ (i : Int)) := by
      simp only [TestDataManager.resetUsedData]
      omega
    rw [TestDataManager.getDataByIndex, if_neg hcond]
    simp [TestDataManager.resetUsedData]
  · intro w o h
    exact @getUniqueData_direct m.resetUsedData w o h (Finset.not_mem_empty _)

/-- C9 witness: after resetting the manager with index 0 used, worker 0
again receives record 0 through the direct path. -/
theorem resetUsedData_clears_witness :
    mUsed.resetUsedData.getUniqueData 0 0 =
      (some { record := recA, dataIndex := 0, workerIndex := some 0 },
       { allData := [recA, recB, recC], usedIndices := insert 0 ∅, dataPerWorker := 2 }) :=
  (resetUsedData_clears mUsed).2.2.2.2 0 0 (by decide)

/-- C10: `getUniqueData` does not restrict the offset to the slice size:
for an unused in-bounds candidate index with `offset ≥ dataPerWorker`, the
direct path marks and returns that index even though it lies at or beyond
the end of the worker's own reserved range, inside another worker's range
(e.g. worker 0 with offset `dataPerWorker` takes worker 1's first index). -/
theorem getUniqueData_offset_unrestricted (m : TestDataManager) (w o : Nat)
    (hoff : m.dataPerWorker ≤ o)
    (hin : m.candidateIndex w o < m.allData.length)
    (hfree : m.candidateIndex w o ∉ m.usedIndices) :
    m.getUniqueData w o =
      (some { record := m.allData.getD (m.candidateIndex w o) dummyRecord,
              dataIndex := m.candidateIndex w o, workerIndex := some w },
       { m with usedIndices := insert (m.candidateIndex w o) m.usedIndices }) ∧
    m.startIndex w + m.dataPerWorker ≤ m.candidateIndex w o ∧
    (0 < m.dataPerWorker → m.candidateIndex w o / m.dataPerWorker ≠ w) ∧
    m.candidateIndex 0 m.dataPerWorker = m.candidateIndex 1 0 := by
  refine ⟨getUniqueData_direct hin hfree, ?_, ?_, ?_⟩
  · unfold TestDataManager.candidateIndex TestDataManager.startIndex
    exact Nat.add_le_add_left hoff _
  · intro hd
    unfold TestDataManager.candidateIndex TestDataManager.startIndex
    rw [Nat.mul_comm, Nat.mul_add_div hd]
    have hq : 1 ≤ o / m.dataPerWorker := (Nat.one_le_div_iff hd).mpr hoff
    generalize o / m.dataPerWorker = q at hq
    omega
  · unfold TestDataManager.candidateIndex TestDataManager.startIndex
    simp

/-- C10 witness: on the fresh slice-size-2 manager, worker 0 with offset 2
is served index 2, the first index of worker 1's range. -/
theorem getUniqueData_offset_unrestricted_witness :
    mEx.getUniqueData 0 2 =
      (some { record := recC, dataIndex := 2, workerIndex := some 0 },
       { allData := [recA, recB, recC], usedIndices := insert 2 ∅, dataPerWorker := 2 }) :=
  (getUniqueData_offset_unrestricted mEx 0 2 (by decide) (by decide) (by decide)).1

end TestData
